import Mathlib

/-!
Shallow embedding of the day-19 blueprint search engine
(`src/bin/day19.rs`): resource/robot vectors, blueprints, the build-order
generator `order_permutation_s`, the state transition `with_order`/`step`,
the per-tick group-and-prune loop of `main`, and the regex-driven `parse`.

Machine integers (`usize`) are modelled as `Nat`; the panicking
`checked_sub(..).unwrap()` of `Sub for Resources` is modelled as an
`Option`-valued subtraction (`none` = panic).  `checked_add` on `Nat`
cannot overflow in the model, so additions are plain `Nat` additions.
`BTreeSet` collections are modelled as sorted, duplicate-free lists under
the derived lexicographic order of the Rust structs (fields compared in
declaration order).
-/

namespace Day19

/-- The four resource kinds, in the declaration order of the Rust enum
`ResourceType` (the order `enum_iterator::all` yields them). -/
inductive ResourceType where
  | Ore
  | Clay
  | Obsidian
  | Geode
deriving DecidableEq, Repr

/-- `all::<ResourceType>()` enumerates the variants in declaration order. -/
def allResourceTypes : List ResourceType :=
  [ResourceType.Ore, ResourceType.Clay, ResourceType.Obsidian, ResourceType.Geode]

/-- The Rust struct `Resources`; fields in the declaration order
(geode, obsidian, clay, ore), which the derived `Ord` compares
lexicographically. -/
structure Resources where
  geode : Nat
  obsidian : Nat
  clay : Nat
  ore : Nat
deriving DecidableEq, Repr

/-- `Resources::default()`: all counters zero. -/
def Resources.zero : Resources := ⟨0, 0, 0, 0⟩

/-- `Resources::contains`: every component of `self` is ≥ the corresponding
component of `other` (the affordability test). -/
def Resources.contains (a b : Resources) : Bool :=
  decide (a.ore ≥ b.ore) && decide (a.clay ≥ b.clay) &&
    decide (a.obsidian ≥ b.obsidian) && decide (a.geode ≥ b.geode)

/-- `Resources::total_resources`: sum of the four components. -/
def Resources.total_resources (a : Resources) : Nat :=
  a.ore + a.clay + a.obsidian + a.geode

/-- `usize::checked_sub`: `none` when the subtraction would underflow. -/
def checkedSub (a b : Nat) : Option Nat :=
  if b ≤ a then some (a - b) else none

/-- `impl Sub for Resources`: component-wise `checked_sub(..).unwrap()`.
The `unwrap` panic is modelled as `none`. -/
def Resources.sub? (a b : Resources) : Option Resources := do
  let ore ← checkedSub a.ore b.ore
  let clay ← checkedSub a.clay b.clay
  let obsidian ← checkedSub a.obsidian b.obsidian
  let geode ← checkedSub a.geode b.geode
  pure ⟨geode, obsidian, clay, ore⟩

/-- `impl Add for Resources` (component-wise; `checked_add` cannot
overflow on `Nat`). -/
instance : Add Resources :=
  ⟨fun a b => ⟨a.geode + b.geode, a.obsidian + b.obsidian, a.clay + b.clay, a.ore + b.ore⟩⟩

theorem Resources.add_resources_def (a b : Resources) :
    a + b = ⟨a.geode + b.geode, a.obsidian + b.obsidian, a.clay + b.clay, a.ore + b.ore⟩ := rfl

/-- The derived lexicographic `Ord` of the Rust `Resources` struct:
geode, then obsidian, then clay, then ore. -/
def Resources.cmp (a b : Resources) : Ordering :=
  (compare a.geode b.geode).then
    ((compare a.obsidian b.obsidian).then
      ((compare a.clay b.clay).then (compare a.ore b.ore)))

/-- The Rust struct `Robots`; same field order as `Resources`. -/
structure Robots where
  geode : Nat
  obsidian : Nat
  clay : Nat
  ore : Nat
deriving DecidableEq, Repr

/-- `Robots::default()`: no robots. -/
def Robots.zero : Robots := ⟨0, 0, 0, 0⟩

/-- `Robots::contains`: does the robot set include a robot of the given kind
(count strictly positive)? -/
def Robots.contains (r : Robots) (rt : ResourceType) : Bool :=
  match rt with
  | ResourceType.Ore => decide (r.ore > 0)
  | ResourceType.Clay => decide (r.clay > 0)
  | ResourceType.Obsidian => decide (r.obsidian > 0)
  | ResourceType.Geode => decide (r.geode > 0)

/-- `impl Add for Robots` (component-wise; `checked_add` cannot overflow
on `Nat`). -/
instance : Add Robots :=
  ⟨fun a b => ⟨a.geode + b.geode, a.obsidian + b.obsidian, a.clay + b.clay, a.ore + b.ore⟩⟩

theorem Robots.add_robots_def (a b : Robots) :
    a + b = ⟨a.geode + b.geode, a.obsidian + b.obsidian, a.clay + b.clay, a.ore + b.ore⟩ := rfl

/-- The derived lexicographic `Ord` of the Rust `Robots` struct. -/
def Robots.cmp (a b : Robots) : Ordering :=
  (compare a.geode b.geode).then
    ((compare a.obsidian b.obsidian).then
      ((compare a.clay b.clay).then (compare a.ore b.ore)))

/-- The Rust struct `Blueprint`: a numeric id and one cost vector per
robot kind. -/
structure Blueprint where
  id : Nat
  ore_robot : Resources
  clay_robot : Resources
  obsidian_robot : Resources
  geode_robot : Resources
deriving DecidableEq, Repr

/-- `Blueprint::robot_cost`: pure lookup of the cost of one robot kind. -/
def Blueprint.robot_cost (bp : Blueprint) (rt : ResourceType) : Resources :=
  match rt with
  | ResourceType.Ore => bp.ore_robot
  | ResourceType.Clay => bp.clay_robot
  | ResourceType.Obsidian => bp.obsidian_robot
  | ResourceType.Geode => bp.geode_robot

/-- `Blueprint::build_cost`: sum, over the robot kinds present in `robots`
(count > 0), of that kind's cost. -/
def Blueprint.build_cost (bp : Blueprint) (robots : Robots) : Resources :=
  allResourceTypes.foldl
    (fun cost rt => if robots.contains rt then cost + bp.robot_cost rt else cost)
    Resources.zero

/-- The Rust struct `State`: robots first, then resources (the derived `Ord`
compares in that order). -/
structure State where
  robots : Robots
  resources : Resources
deriving DecidableEq, Repr

/-- The derived lexicographic `Ord` of `State`. -/
def State.cmp (a b : State) : Ordering :=
  (Robots.cmp a.robots b.robots).then (Resources.cmp a.resources b.resources)

/-- `State::starting`: one ore robot, zero resources. -/
def State.starting : State := ⟨⟨0, 0, 0, 1⟩, Resources.zero⟩

/-- `fn resources_made`: one resource unit per robot per tick. -/
def resources_made (robots : Robots) : Resources :=
  ⟨robots.geode, robots.obsidian, robots.clay, robots.ore⟩

/-- `State::with_order`: subtract the order's build cost (a panic on
underflow is `none`), add the production of the pre-transition robots, and
add the newly queued robot. -/
def State.with_order (s : State) (bp : Blueprint) (order : Robots) : Option State :=
  (s.resources.sub? (bp.build_cost order)).map fun r =>
    { robots := s.robots + order, resources := r + resources_made s.robots }

/-- The `possible_builds` list of `order_permutation_s`, in source order:
build nothing, one geode robot, one ore robot, one clay robot, one
obsidian robot. -/
def possible_builds : List Robots :=
  [⟨0, 0, 0, 0⟩, ⟨1, 0, 0, 0⟩, ⟨0, 0, 0, 1⟩, ⟨0, 0, 1, 0⟩, ⟨0, 1, 0, 0⟩]

/-- `fn order_permutation_s`: the candidate build orders whose build cost is
contained in the current resources (the `_robots` argument is unused, as in
the source). -/
def order_permutation_s (resources : Resources) (_robots : Robots) (blueprint : Blueprint) :
    List Robots :=
  possible_builds.filter (fun r => resources.contains (blueprint.build_cost r))

/-- `State::step`: apply every generated order to the state.  The Rust code
collects into a `BTreeSet`; dedup/sorting happens when the per-tick union is
formed (see `tick`), which yields the same set. -/
def State.step (s : State) (bp : Blueprint) : Option (List State) :=
  (order_permutation_s s.resources s.robots bp).mapM (s.with_order bp)

/-- `≤` in the derived `State` order, as a Bool (for sorting). -/
def stateLe (a b : State) : Bool := (State.cmp a b).isLE

/-- Merge two sorted lists; the fuel argument makes the recursion
structural (hence kernel-reducible).  Ties prefer the left list, so the
resulting bottom-up merge sort is stable, like Rust's `sort_by_key`. -/
def mergeFuel (le : State → State → Bool) : Nat → List State → List State → List State
  | 0, xs, ys => xs ++ ys
  | _ + 1, [], ys => ys
  | _ + 1, x :: xs, [] => x :: xs
  | fuel + 1, x :: xs, y :: ys =>
    if le x y then x :: mergeFuel le fuel xs (y :: ys)
    else y :: mergeFuel le fuel (x :: xs) ys

/-- Merge two sorted lists (fuel instantiated to the exact length). -/
def mergeLists (le : State → State → Bool) (xs ys : List State) : List State :=
  mergeFuel le (xs.length + ys.length) xs ys

/-- Merge adjacent pairs of runs (one pass of bottom-up merge sort). -/
def mergePairs (le : State → State → Bool) : List (List State) → List (List State)
  | [] => []
  | [l] => [l]
  | a :: b :: t => mergeLists le a b :: mergePairs le t

/-- Repeatedly merge adjacent runs until one run remains. -/
def mergeAll (le : State → State → Bool) : Nat → List (List State) → List State
  | 0, ls => ls.flatten
  | _ + 1, [] => []
  | _ + 1, [l] => l
  | fuel + 1, a :: b :: t => mergeAll le fuel (mergePairs le (a :: b :: t))

/-- Stable bottom-up merge sort (models Rust's stable `sort_by_key` and the
ordering of `BTreeSet` iteration). -/
def sortBy (le : State → State → Bool) (l : List State) : List State :=
  mergeAll le l.length (l.map (fun x => [x]))

/-- Remove adjacent duplicates (applied after sorting, this models
collecting a list into a `BTreeSet`). -/
def dedupAdj : List State → List State
  | [] => []
  | [a] => [a]
  | a :: b :: t => if a = b then dedupAdj (b :: t) else a :: dedupAdj (b :: t)

/-- Collect a list of states into a `BTreeSet`: sorted in the derived
`State` order with duplicates removed. -/
def sortDedup (l : List State) : List State := dedupAdj (sortBy stateLe l)

/-- `group_by(|s| s.robots)` over the (sorted) set iteration order: maximal
runs of consecutive states with equal robot vectors. -/
def groupByRobots : List State → List (List State)
  | [] => []
  | s :: t =>
    match groupByRobots t with
    | [] => [[s]]
    | [] :: gs => [s] :: [] :: gs
    | (x :: g) :: gs =>
      if s.robots = x.robots then (s :: x :: g) :: gs else [s] :: (x :: g) :: gs

/-- Comparison key of the per-group sort: `sort_by_key(total_resources)`
(ascending, stable — `mergeSort` is also stable). -/
def totalLe (a b : State) : Bool :=
  decide (a.resources.total_resources ≤ b.resources.total_resources)

/-- One pruning bucket: sort ascending by total resources (stable), reverse,
keep the first 10 (`&state_group[0..10.min(state_group.len())]`). -/
def pruneGroup (g : List State) : List State :=
  ((sortBy totalLe g).reverse).take 10

/-- The per-tick pruning step of `main`: group the successor set by robot
vector, keep the top 10 of each group by total resources, and collect the
retained states into the new frontier set (`new_state_pared`). -/
def pruneFrontier (l : List State) : List State :=
  sortDedup ((groupByRobots l).map pruneGroup).flatten

/-- One iteration of the per-tick loop of `main`: expand every frontier
state, form the union successor set (`new_states`), and prune it. -/
def tick (bp : Blueprint) (states : List State) : Option (List State) :=
  (states.mapM (fun s => State.step s bp)).map
    (fun succs => pruneFrontier (sortDedup succs.flatten))

/-- The search driver of `main`: start from `{State::starting}` and run
`tick` once per time unit, `1..=limit`. -/
def runSearch (bp : Blueprint) : Nat → Option (List State)
  | 0 => some [State.starting]
  | n + 1 => (runSearch bp n).bind (tick bp)

/-- `≤` on the resources component (`sort_by_key(|s| s.resources)`). -/
def resourcesLe (a b : State) : Bool := (Resources.cmp a.resources b.resources).isLE

/-- Best-state extraction of `main`: sort the final frontier by resources,
reverse, and index element 0 (`none` models the panic on an empty list). -/
def bestState (states : List State) : Option State :=
  ((sortBy resourcesLe states).reverse).head?

/-- The best geode count the driver reports for one blueprint and time
limit (`state_list[0].resources.geode`). -/
def bestGeodes (bp : Blueprint) (limit : Nat) : Option Nat :=
  (runSearch bp limit).bind (fun sts => (bestState sts).map (fun s => s.resources.geode))

/-- The quality-level aggregation of `main`:
`Σ bp.id * geodes` over `blueprints[0..blueprint_limit.min(len)]`. -/
def qualityLevel (bps : List Blueprint) (time_limit blueprint_limit : Nat) : Option Nat :=
  ((bps.take (min blueprint_limit bps.length)).mapM
    (fun bp => (bestGeodes bp time_limit).map (fun g => bp.id * g))).map
    (fun xs => xs.foldl (fun a b => a + b) 0)

/-- A blueprint none of whose robot kinds costs geodes (every blueprint
produced by `parse` has this shape). -/
def Blueprint.geodeFree (bp : Blueprint) : Prop :=
  bp.ore_robot.geode = 0 ∧ bp.clay_robot.geode = 0 ∧
    bp.obsidian_robot.geode = 0 ∧ bp.geode_robot.geode = 0

/-- Iterate `with_order` over a list of chosen build orders. -/
def applyOrders (bp : Blueprint) : State → List Robots → Option State
  | s, [] => some s
  | s, o :: os => (s.with_order bp o).bind (fun t => applyOrders bp t os)

/-- Each order of the list is produced by the build-order generator at the
state where it is applied. -/
def ordersLegal (bp : Blueprint) : State → List Robots → Bool
  | _, [] => true
  | s, o :: os =>
    decide (o ∈ order_permutation_s s.resources s.robots bp) &&
      (match s.with_order bp o with
       | none => false
       | some t => ordersLegal bp t os)

/-! ### The input grammar of `parse`

`parse` compiles the fixed blueprint sentence as a regex and walks the
input with `captures_iter`.  The regex is a sequence of literal
characters, `.` (any character except a newline), and seven greedy digit
groups `(\d+)`; it is modelled token by token. -/

/-- One token of the blueprint regex: a literal character, the
any-character-except-newline `.`, or a digit capture group `(\d+)`. -/
inductive PatTok where
  | lit (c : Char)
  | anyChar
  | num
deriving DecidableEq, Repr

/-- Tokenise a literal run of the regex source: `.` is the any-character
token, every other character matches itself. -/
def patSeg (s : String) : List PatTok :=
  s.toList.map (fun c => if c = '.' then PatTok.anyChar else PatTok.lit c)

/-- The blueprint regex of `parse`, tokenised (the source pattern ends with
a literal newline inside the raw string). -/
def blueprintPattern : List PatTok :=
  patSeg "Blueprint " ++ [PatTok.num] ++
  patSeg ": Each ore robot costs " ++ [PatTok.num] ++
  patSeg " ore. Each clay robot costs " ++ [PatTok.num] ++
  patSeg " ore. Each obsidian robot costs " ++ [PatTok.num] ++
  patSeg " ore and " ++ [PatTok.num] ++
  patSeg " clay. Each geode robot costs " ++ [PatTok.num] ++
  patSeg " ore and " ++ [PatTok.num] ++
  patSeg " obsidian.\n"

/-- `str::parse::<usize>` on a digit run. -/
def digitsToNat (ds : List Char) : Nat :=
  ds.foldl (fun n c => n * 10 + (c.toNat - '0'.toNat)) 0

/-- Match a token list at the start of the input, returning the captured
numbers and the remaining input.  `(\d+)` takes the maximal digit run; in
`blueprintPattern` every group is followed by a non-digit literal, so the
maximal munch is the unique regex match. -/
def matchToks : List PatTok → List Char → Option (List Nat × List Char)
  | [], rest => some ([], rest)
  | PatTok.lit c :: ts, x :: rest => if x = c then matchToks ts rest else none
  | PatTok.anyChar :: ts, x :: rest => if x = '\n' then none else matchToks ts rest
  | PatTok.num :: ts, input =>
    let ds := input.takeWhile Char.isDigit
    if ds.isEmpty then none
    else (matchToks ts (input.dropWhile Char.isDigit)).map
      (fun r => (digitsToNat ds :: r.1, r.2))
  | _ :: _, [] => none

/-- `captures_iter`: scan left to right, trying the pattern at every
position; on a match, emit its captures and resume after it, otherwise
advance one character.  The fuel (instantiated with the input length)
bounds the number of scan steps. -/
def findMatchesAux : Nat → List Char → List (List Nat)
  | 0, _ => []
  | _ + 1, [] => []
  | fuel + 1, x :: t =>
    match matchToks blueprintPattern (x :: t) with
    | some (caps, rest) => caps :: findMatchesAux fuel rest
    | none => findMatchesAux fuel t

/-- `Blueprint::new`: build a blueprint from the seven capture groups
(ore robot: ore; clay robot: ore; obsidian robot: ore, clay; geode robot:
ore, obsidian).  The pattern always yields exactly seven groups. -/
def Blueprint.new (caps : List Nat) : Option Blueprint :=
  match caps with
  | [id, a, b, c, d, e, f] =>
    some ⟨id, ⟨0, 0, 0, a⟩, ⟨0, 0, 0, b⟩, ⟨0, 0, d, c⟩, ⟨0, f, 0, e⟩⟩
  | _ => none

/-- `fn parse`: one blueprint per non-overlapping match of the pattern;
text that matches nowhere is skipped by `captures_iter`. -/
def parse (s : String) : List Blueprint :=
  (findMatchesAux s.toList.length s.toList).filterMap Blueprint.new

/-- The embedded `SAMPLE` input (two blueprints). -/
def SAMPLE : String :=
  "Blueprint 1: Each ore robot costs 4 ore. Each clay robot costs 2 ore. Each obsidian robot costs 3 ore and 14 clay. Each geode robot costs 2 ore and 7 obsidian.\nBlueprint 2: Each ore robot costs 2 ore. Each clay robot costs 3 ore. Each obsidian robot costs 3 ore and 8 clay. Each geode robot costs 3 ore and 12 obsidian.\n"

/-- The first sample blueprint, as parsed. -/
def sampleBp1 : Blueprint := ⟨1, ⟨0, 0, 0, 4⟩, ⟨0, 0, 0, 2⟩, ⟨0, 0, 14, 3⟩, ⟨0, 7, 0, 2⟩⟩

/-- The second sample blueprint, as parsed. -/
def sampleBp2 : Blueprint := ⟨2, ⟨0, 0, 0, 2⟩, ⟨0, 0, 0, 3⟩, ⟨0, 0, 8, 3⟩, ⟨0, 12, 0, 3⟩⟩

/-- The spec-side build policy of known scenario 3, following the spec's
words "always building the cheapest affordable non-geode robot": among the
non-geode robot kinds (ore, clay, obsidian), build the affordable one of
least total build cost; when none is affordable, build nothing. -/
def cheapestAffordableNonGeode (bp : Blueprint) (res : Resources) : Robots :=
  let nonGeode : List Robots := [⟨0, 0, 0, 1⟩, ⟨0, 0, 1, 0⟩, ⟨0, 1, 0, 0⟩]
  match nonGeode.filter (fun r => res.contains (bp.build_cost r)) with
  | [] => Robots.zero
  | r :: rs =>
    rs.foldl
      (fun best r₂ =>
        if (bp.build_cost r₂).total_resources < (bp.build_cost best).total_resources
        then r₂ else best) r

/-- The build orders chosen by the greedy policy over n ticks. -/
def greedyOrders (bp : Blueprint) : Nat → State → List Robots
  | 0, _ => []
  | n + 1, s =>
    let o := cheapestAffordableNonGeode bp s.resources
    o :: (match s.with_order bp o with
          | some t => greedyOrders bp n t
          | none => [])

/-- Lexicographic comparison along a list of projections (proof-side
normal form of the derived `Ord` chains). -/
def lexCmp {α : Type} : List (α → Nat) → α → α → Ordering
  | [], _, _ => Ordering.eq
  | f :: fs, a, b => (compare (f a) (f b)).then (lexCmp fs a b)

/-- The eight projections whose lexicographic order is the derived
`Ord` of `State`. -/
def stateProj : List (State → Nat) :=
  [fun s => s.robots.geode, fun s => s.robots.obsidian,
   fun s => s.robots.clay, fun s => s.robots.ore,
   fun s => s.resources.geode, fun s => s.resources.obsidian,
   fun s => s.resources.clay, fun s => s.resources.ore]

/-- The four projections of the derived `Ord` of the resources component. -/
def resourcesProj : List (State → Nat) :=
  [fun s => s.resources.geode, fun s => s.resources.obsidian,
   fun s => s.resources.clay, fun s => s.resources.ore]

/-! ## Ordering and comparison-chain lemmas -/

theorem then_eq_eq {o p : Ordering} :
    o.then p = Ordering.eq ↔ o = Ordering.eq ∧ p = Ordering.eq := by
  cases o <;> simp [Ordering.then]

theorem then_assoc (o p q : Ordering) : (o.then p).then q = o.then (p.then q) := by
  cases o <;> simp [Ordering.then]

theorem then_eq_right (o : Ordering) : o.then Ordering.eq = o := by
  cases o <;> simp [Ordering.then]

theorem then_isLE {o p : Ordering} :
    (o.then p).isLE = true ↔ o = Ordering.lt ∨ (o = Ordering.eq ∧ p.isLE = true) := by
  cases o <;> simp [Ordering.then, Ordering.isLE]

theorem nat_compare_isLE {a b : Nat} : (compare a b).isLE = true ↔ a ≤ b := by
  cases h : compare a b with
  | lt =>
    have := compare_lt_iff_lt.mp h
    simp [Ordering.isLE]
    omega
  | eq =>
    have := compare_eq_iff_eq.mp h
    simp [Ordering.isLE]
    omega
  | gt =>
    have := compare_gt_iff_gt.mp h
    simp [Ordering.isLE]
    omega

theorem lexCmp_eq_eq {α : Type} (fs : List (α → Nat)) (a b : α) :
    lexCmp fs a b = Ordering.eq ↔ ∀ f ∈ fs, f a = f b := by
  induction fs with
  | nil => simp [lexCmp]
  | cons f fs ih => simp [lexCmp, then_eq_eq, ih, compare_eq_iff_eq]

theorem lexCmp_isLE_total {α : Type} (fs : List (α → Nat)) (a b : α) :
    (lexCmp fs a b).isLE = true ∨ (lexCmp fs b a).isLE = true := by
  induction fs with
  | nil => simp [lexCmp, Ordering.isLE]
  | cons f fs ih =>
    rcases Nat.lt_trichotomy (f a) (f b) with h | h | h
    · exact Or.inl (then_isLE.mpr (Or.inl (compare_lt_iff_lt.mpr h)))
    · rcases ih with ih | ih
      · exact Or.inl (then_isLE.mpr (Or.inr ⟨compare_eq_iff_eq.mpr h, ih⟩))
      · exact Or.inr (then_isLE.mpr (Or.inr ⟨compare_eq_iff_eq.mpr h.symm, ih⟩))
    · exact Or.inr (then_isLE.mpr (Or.inl (compare_lt_iff_lt.mpr h)))

theorem lexCmp_isLE_trans {α : Type} {fs : List (α → Nat)} {a b c : α}
    (hab : (lexCmp fs a b).isLE = true) (hbc : (lexCmp fs b c).isLE = true) :
    (lexCmp fs a c).isLE = true := by
  induction fs with
  | nil => simp [lexCmp, Ordering.isLE]
  | cons f fs ih =>
    rcases then_isLE.mp hab with h₁ | ⟨h₁, h₁r⟩ <;>
      rcases then_isLE.mp hbc with h₂ | ⟨h₂, h₂r⟩
    · exact then_isLE.mpr (Or.inl (compare_lt_iff_lt.mpr
        (lt_trans (compare_lt_iff_lt.mp h₁) (compare_lt_iff_lt.mp h₂))))
    · exact then_isLE.mpr (Or.inl (compare_lt_iff_lt.mpr
        (lt_of_lt_of_le (compare_lt_iff_lt.mp h₁) (le_of_eq (compare_eq_iff_eq.mp h₂)))))
    · exact then_isLE.mpr (Or.inl (compare_lt_iff_lt.mpr
        (lt_of_le_of_lt (le_of_eq (compare_eq_iff_eq.mp h₁)) (compare_lt_iff_lt.mp h₂))))
    · exact then_isLE.mpr (Or.inr ⟨compare_eq_iff_eq.mpr
        ((compare_eq_iff_eq.mp h₁).trans (compare_eq_iff_eq.mp h₂)), ih h₁r h₂r⟩)

theorem lexCmp_isLE_antisymm {α : Type} {fs : List (α → Nat)} {a b : α}
    (hab : (lexCmp fs a b).isLE = true) (hba : (lexCmp fs b a).isLE = true) :
    ∀ f ∈ fs, f a = f b := by
  induction fs with
  | nil => simp
  | cons f fs ih =>
    rcases then_isLE.mp hab with h₁ | ⟨h₁, h₁r⟩ <;>
      rcases then_isLE.mp hba with h₂ | ⟨h₂, h₂r⟩
    · have := compare_lt_iff_lt.mp h₁
      have := compare_lt_iff_lt.mp h₂
      omega
    · have := compare_lt_iff_lt.mp h₁
      have := compare_eq_iff_eq.mp h₂
      omega
    · have := compare_eq_iff_eq.mp h₁
      have := compare_lt_iff_lt.mp h₂
      omega
    · intro g hg
      rcases List.mem_cons.mp hg with rfl | hg
      · exact compare_eq_iff_eq.mp h₁
      · exact ih h₁r h₂r g hg

theorem state_cmp_eq_lexCmp (a b : State) : State.cmp a b = lexCmp stateProj a b := by
  simp [State.cmp, Robots.cmp, Resources.cmp, lexCmp, stateProj, then_assoc, then_eq_right]

theorem resources_cmp_eq_lexCmp (a b : State) :
    Resources.cmp a.resources b.resources = lexCmp resourcesProj a b := by
  simp [Resources.cmp, lexCmp, resourcesProj, then_assoc, then_eq_right]

theorem stateLe_total (a b : State) : stateLe a b = true ∨ stateLe b a = true := by
  simpa [stateLe, state_cmp_eq_lexCmp] using lexCmp_isLE_total stateProj a b

theorem stateLe_trans {a b c : State} (hab : stateLe a b = true) (hbc : stateLe b c = true) :
    stateLe a c = true := by
  rw [stateLe, state_cmp_eq_lexCmp] at *
  exact lexCmp_isLE_trans hab hbc

theorem state_ext {a b : State}
    (hrob : a.robots = b.robots) (hres : a.resources = b.resources) : a = b := by
  cases a; cases b; simp_all

theorem resources_ext {a b : Resources} (h₁ : a.geode = b.geode) (h₂ : a.obsidian = b.obsidian)
    (h₃ : a.clay = b.clay) (h₄ : a.ore = b.ore) : a = b := by
  cases a; cases b; simp_all

theorem robots_ext {a b : Robots} (h₁ : a.geode = b.geode) (h₂ : a.obsidian = b.obsidian)
    (h₃ : a.clay = b.clay) (h₄ : a.ore = b.ore) : a = b := by
  cases a; cases b; simp_all

theorem stateLe_antisymm {a b : State} (hab : stateLe a b = true) (hba : stateLe b a = true) :
    a = b := by
  rw [stateLe, state_cmp_eq_lexCmp] at hab hba
  have h := lexCmp_isLE_antisymm hab hba
  simp only [stateProj, List.forall_mem_cons, List.forall_mem_nil, and_true] at h
  obtain ⟨h₁, h₂, h₃, h₄, h₅, h₆, h₇, h₈⟩ := h
  exact state_ext (robots_ext h₁ h₂ h₃ h₄) (resources_ext h₅ h₆ h₇ h₈.1)

theorem resourcesLe_total (a b : State) : resourcesLe a b = true ∨ resourcesLe b a = true := by
  simpa [resourcesLe, resources_cmp_eq_lexCmp] using lexCmp_isLE_total resourcesProj a b

theorem resourcesLe_trans {a b c : State} (hab : resourcesLe a b = true)
    (hbc : resourcesLe b c = true) : resourcesLe a c = true := by
  rw [resourcesLe, resources_cmp_eq_lexCmp] at *
  exact lexCmp_isLE_trans hab hbc

theorem totalLe_total (a b : State) : totalLe a b = true ∨ totalLe b a = true := by
  simp [totalLe]
  omega

theorem totalLe_trans {a b c : State} (hab : totalLe a b = true) (hbc : totalLe b c = true) :
    totalLe a c = true := by
  simp [totalLe] at *
  omega

/-- `stateLe` projects to the robots chain: the first four projections of
two `stateLe`-related states are lexicographically ordered. -/
theorem stateLe_robots_le {a b : State} (h : stateLe a b = true) :
    (Robots.cmp a.robots b.robots).isLE = true := by
  rw [stateLe, State.cmp] at h
  rcases then_isLE.mp h with h | ⟨h, _⟩
  · simp [h, Ordering.isLE]
  · simp [h, Ordering.isLE]

theorem robots_cmp_eq_lexCmp (a b : Robots) :
    Robots.cmp a b = lexCmp [Robots.geode, Robots.obsidian, Robots.clay, Robots.ore] a b := by
  simp [Robots.cmp, lexCmp, then_assoc, then_eq_right]

theorem robots_cmp_isLE_antisymm {a b : Robots} (hab : (Robots.cmp a b).isLE = true)
    (hba : (Robots.cmp b a).isLE = true) : a = b := by
  rw [robots_cmp_eq_lexCmp] at hab hba
  have h := lexCmp_isLE_antisymm hab hba
  simp only [List.forall_mem_cons, List.forall_mem_nil, and_true] at h
  obtain ⟨h₁, h₂, h₃, h₄⟩ := h
  exact robots_ext h₁ h₂ h₃ h₄.1

/-! ## Permutation and sortedness of the fuel-based merge sort -/

theorem mergeFuel_perm (le : State → State → Bool) :
    ∀ (fuel : Nat) (xs ys : List State), (mergeFuel le fuel xs ys).Perm (xs ++ ys)
  | 0, _, _ => List.Perm.refl _
  | _ + 1, [], ys => by simp [mergeFuel]
  | _ + 1, _ :: _, [] => by simp [mergeFuel]
  | fuel + 1, x :: xs, y :: ys => by
    rw [mergeFuel]
    split
    · exact (mergeFuel_perm le fuel xs (y :: ys)).cons x
    · exact ((mergeFuel_perm le fuel (x :: xs) ys).cons y).trans List.perm_middle.symm

theorem mem_mergeFuel {le : State → State → Bool} {fuel : Nat} {xs ys : List State} {z : State} :
    z ∈ mergeFuel le fuel xs ys ↔ z ∈ xs ∨ z ∈ ys := by
  rw [(mergeFuel_perm le fuel xs ys).mem_iff, List.mem_append]

theorem mergePairs_flatten_perm (le : State → State → Bool) :
    ∀ ls : List (List State), ((mergePairs le ls).flatten).Perm ls.flatten
  | [] => List.Perm.refl _
  | [_] => by simp [mergePairs]
  | a :: b :: t => by
    simp only [mergePairs, List.flatten_cons, mergeLists]
    refine (List.Perm.append (mergeFuel_perm le _ a b) (mergePairs_flatten_perm le t)).trans ?_
    rw [List.append_assoc]

theorem mergeAll_perm (le : State → State → Bool) :
    ∀ (fuel : Nat) (ls : List (List State)), (mergeAll le fuel ls).Perm ls.flatten
  | 0, _ => List.Perm.refl _
  | _ + 1, [] => by simp [mergeAll]
  | _ + 1, [l] => by simp [mergeAll]
  | fuel + 1, a :: b :: t => by
    rw [mergeAll]
    exact (mergeAll_perm le fuel _).trans (mergePairs_flatten_perm le _)

theorem flatten_singletons : ∀ l : List State, (l.map (fun x => [x])).flatten = l
  | [] => rfl
  | x :: t => by simp [flatten_singletons t]

theorem sortBy_perm (le : State → State → Bool) (l : List State) : (sortBy le l).Perm l := by
  refine (mergeAll_perm le l.length _).trans ?_
  rw [flatten_singletons]

theorem mem_sortBy {le : State → State → Bool} {l : List State} {x : State} :
    x ∈ sortBy le l ↔ x ∈ l := (sortBy_perm le l).mem_iff

theorem length_sortBy (le : State → State → Bool) (l : List State) :
    (sortBy le l).length = l.length := (sortBy_perm le l).length_eq

theorem mergeFuel_sorted (le : State → State → Bool)
    (htrans : ∀ a b c, le a b = true → le b c = true → le a c = true)
    (htot : ∀ a b, le a b = true ∨ le b a = true) :
    ∀ (fuel : Nat) (xs ys : List State), xs.length + ys.length ≤ fuel →
      xs.Pairwise (fun a b => le a b = true) → ys.Pairwise (fun a b => le a b = true) →
      (mergeFuel le fuel xs ys).Pairwise (fun a b => le a b = true)
  | 0, xs, ys, hf, _, _ => by
    have hx : xs = [] := List.length_eq_zero.mp (by omega)
    have hy : ys = [] := List.length_eq_zero.mp (by omega)
    subst hx; subst hy
    simp [mergeFuel]
  | _ + 1, [], ys, _, _, hys => by simpa [mergeFuel] using hys
  | _ + 1, x :: xs, [], _, hxs, _ => by simpa [mergeFuel] using hxs
  | fuel + 1, x :: xs, y :: ys, hf, hxs, hys => by
    rw [mergeFuel]
    rw [List.pairwise_cons] at hxs hys
    obtain ⟨hxhead, hxs⟩ := hxs
    obtain ⟨hyhead, hys⟩ := hys
    split
    · rename_i hxy
      rw [List.pairwise_cons]
      constructor
      · intro z hz
        rcases mem_mergeFuel.mp hz with hz | hz
        · exact hxhead z hz
        · rcases List.mem_cons.mp hz with rfl | hz
          · exact hxy
          · exact htrans _ _ _ hxy (hyhead z hz)
      · refine mergeFuel_sorted le htrans htot fuel xs (y :: ys) (by simp at hf ⊢; omega) hxs ?_
        rw [List.pairwise_cons]
        exact ⟨hyhead, hys⟩
    · rename_i hxy
      have hyx : le y x = true := by
        rcases htot x y with h | h
        · exact absurd h hxy
        · exact h
      rw [List.pairwise_cons]
      constructor
      · intro z hz
        rcases mem_mergeFuel.mp hz with hz | hz
        · rcases List.mem_cons.mp hz with rfl | hz
          · exact hyx
          · exact htrans _ _ _ hyx (hxhead z hz)
        · exact hyhead z hz
      · refine mergeFuel_sorted le htrans htot fuel (x :: xs) ys (by simp at hf ⊢; omega) ?_ hys
        rw [List.pairwise_cons]
        exact ⟨hxhead, hxs⟩

theorem mergePairs_sorted (le : State → State → Bool)
    (htrans : ∀ a b c, le a b = true → le b c = true → le a c = true)
    (htot : ∀ a b, le a b = true ∨ le b a = true) :
    ∀ ls : List (List State), (∀ g ∈ ls, g.Pairwise (fun a b => le a b = true)) →
      ∀ g ∈ mergePairs le ls, g.Pairwise (fun a b => le a b = true)
  | [], _, g, hg => by simp [mergePairs] at hg
  | [l], h, g, hg => by
    rw [mergePairs] at hg
    have hgl : g = l := List.mem_singleton.mp hg
    subst hgl
    exact h _ (List.mem_singleton.mpr rfl)
  | a :: b :: t, h, g, hg => by
    rw [mergePairs] at hg
    rcases List.mem_cons.mp hg with rfl | hg
    · exact mergeFuel_sorted le htrans htot _ a b (le_refl _)
        (h a (by simp)) (h b (by simp))
    · exact mergePairs_sorted le htrans htot t (fun g hg => h g (by simp [hg])) g hg

theorem mergePairs_length (le : State → State → Bool) :
    ∀ ls : List (List State), (mergePairs le ls).length ≤ ls.length
  | [] => le_refl _
  | [_] => le_refl _
  | _ :: _ :: t => by
    rw [mergePairs]
    have := mergePairs_length le t
    simp only [List.length_cons]
    omega

theorem mergeAll_sorted (le : State → State → Bool)
    (htrans : ∀ a b c, le a b = true → le b c = true → le a c = true)
    (htot : ∀ a b, le a b = true ∨ le b a = true) :
    ∀ (fuel : Nat) (ls : List (List State)), ls.length ≤ fuel →
      (∀ g ∈ ls, g.Pairwise (fun a b => le a b = true)) →
      (mergeAll le fuel ls).Pairwise (fun a b => le a b = true)
  | 0, ls, hf, _ => by
    have : ls = [] := List.length_eq_zero.mp (by omega)
    subst this
    simp [mergeAll]
  | _ + 1, [], _, _ => by simp [mergeAll]
  | _ + 1, [l], _, h => by
    rw [mergeAll]
    exact h l (by simp)
  | fuel + 1, a :: b :: t, hf, h => by
    rw [mergeAll]
    refine mergeAll_sorted le htrans htot fuel _ ?_ (mergePairs_sorted le htrans htot _ h)
    have h₁ := mergePairs_length le t
    simp only [mergePairs, List.length_cons] at hf ⊢
    omega

theorem sortBy_sorted (le : State → State → Bool)
    (htrans : ∀ a b c, le a b = true → le b c = true → le a c = true)
    (htot : ∀ a b, le a b = true ∨ le b a = true) (l : List State) :
    (sortBy le l).Pairwise (fun a b => le a b = true) := by
  refine mergeAll_sorted le htrans htot l.length _ (by simp) ?_
  intro g hg
  rcases List.mem_map.mp hg with ⟨x, _, rfl⟩
  simp

/-! ## Dedup lemmas -/

theorem dedupAdj_sublist : ∀ l : List State, (dedupAdj l).Sublist l
  | [] => List.Sublist.slnil
  | [a] => List.Sublist.refl _
  | a :: b :: t => by
    rw [dedupAdj]
    split
    · exact (dedupAdj_sublist (b :: t)).cons a
    · exact (dedupAdj_sublist (b :: t)).cons₂ a

theorem mem_dedupAdj : ∀ (l : List State) (x : State), x ∈ dedupAdj l ↔ x ∈ l
  | [], x => Iff.rfl
  | [a], x => Iff.rfl
  | a :: b :: t, x => by
    rw [dedupAdj]
    split
    · rename_i hab
      rw [mem_dedupAdj (b :: t) x]
      subst hab
      simp
    · simp [mem_dedupAdj (b :: t) x]

theorem dedupAdj_ne_nil : ∀ l : List State, l ≠ [] → dedupAdj l ≠ []
  | [], h => absurd rfl h
  | [a], _ => by simp [dedupAdj]
  | a :: b :: t, _ => by
    rw [dedupAdj]
    split
    · exact dedupAdj_ne_nil (b :: t) (by simp)
    · simp

theorem dedupAdj_pairwise {R : State → State → Prop} {l : List State} (h : l.Pairwise R) :
    (dedupAdj l).Pairwise R := h.sublist (dedupAdj_sublist l)

theorem mem_sortDedup {l : List State} {x : State} : x ∈ sortDedup l ↔ x ∈ l := by
  rw [sortDedup, mem_dedupAdj, mem_sortBy]

theorem sortDedup_ne_nil {l : List State} (h : l ≠ []) : sortDedup l ≠ [] := by
  rw [sortDedup]
  refine dedupAdj_ne_nil _ ?_
  intro hs
  have := length_sortBy stateLe l
  rw [hs] at this
  simp at this
  exact h (List.length_eq_zero.mp this.symm)

theorem sortDedup_pairwise_le (l : List State) :
    (sortDedup l).Pairwise (fun a b => stateLe a b = true) :=
  dedupAdj_pairwise (sortBy_sorted stateLe (fun _ _ _ => stateLe_trans) stateLe_total l)

/-! ## Affordability and the state transition -/

theorem contains_iff {a b : Resources} :
    a.contains b = true ↔
      b.ore ≤ a.ore ∧ b.clay ≤ a.clay ∧ b.obsidian ≤ a.obsidian ∧ b.geode ≤ a.geode := by
  simp [Resources.contains, and_assoc]

theorem sub?_eq_some_of_contains {a b : Resources} (h : a.contains b = true) :
    a.sub? b =
      some ⟨a.geode - b.geode, a.obsidian - b.obsidian, a.clay - b.clay, a.ore - b.ore⟩ := by
  rcases contains_iff.mp h with ⟨h₁, h₂, h₃, h₄⟩
  simp [Resources.sub?, checkedSub, h₁, h₂, h₃, h₄]

/-- C1: every candidate returned by the build-order generator satisfies
`resources.contains (blueprint.build_cost candidate)`, so the component-wise
checked subtraction of the build cost cannot underflow: the panic branch of
`Sub for Resources` is unreachable for generator-produced orders. -/
theorem generator_orders_affordable (res : Resources) (robots : Robots) (bp : Blueprint)
    (o : Robots) (ho : o ∈ order_permutation_s res robots bp) :
    res.contains (bp.build_cost o) = true ∧ (res.sub? (bp.build_cost o)).isSome = true := by
  have hc : res.contains (bp.build_cost o) = true := (List.mem_filter.mp ho).2
  refine ⟨hc, ?_⟩
  rw [sub?_eq_some_of_contains hc]
  rfl

/-- Witness for C1: the ore-robot order generated from 4 ore under sample
blueprint 1 is affordable. -/
theorem generator_orders_affordable_witness :
    (⟨0, 0, 0, 1⟩ : Robots) ∈ order_permutation_s ⟨0, 0, 0, 4⟩ Robots.zero sampleBp1 ∧
      (Resources.contains ⟨0, 0, 0, 4⟩ (sampleBp1.build_cost ⟨0, 0, 0, 1⟩) = true ∧
        (Resources.sub? ⟨0, 0, 0, 4⟩ (sampleBp1.build_cost ⟨0, 0, 0, 1⟩)).isSome = true) :=
  ⟨by decide, generator_orders_affordable ⟨0, 0, 0, 4⟩ Robots.zero sampleBp1 ⟨0, 0, 0, 1⟩
    (by decide)⟩

/-- C2: for an affordable order, `with_order` succeeds and returns the state
whose robots are the old robots plus the queued robot, and whose resources
satisfy, component-wise, new + cost = old + production of the
pre-transition robots (the queued robot produces nothing in its tick, and
the subtraction is exact). -/
theorem with_order_spec (s : State) (bp : Blueprint) (order : Robots)
    (h : s.resources.contains (bp.build_cost order) = true) :
    ∃ t : State, s.with_order bp order = some t ∧
      t.robots = s.robots + order ∧
      t.resources.ore + (bp.build_cost order).ore = s.resources.ore + s.robots.ore ∧
      t.resources.clay + (bp.build_cost order).clay = s.resources.clay + s.robots.clay ∧
      t.resources.obsidian + (bp.build_cost order).obsidian
        = s.resources.obsidian + s.robots.obsidian ∧
      t.resources.geode + (bp.build_cost order).geode = s.resources.geode + s.robots.geode := by
  rcases contains_iff.mp h with ⟨h₁, h₂, h₃, h₄⟩
  have hs := sub?_eq_some_of_contains h
  refine ⟨_, by rw [State.with_order, hs]; rfl, rfl, ?_, ?_, ?_, ?_⟩ <;>
    simp [Resources.add_resources_def, resources_made] <;> omega

/-- Witness for C2: queueing a clay robot from 4 ore under sample
blueprint 1. -/
theorem with_order_spec_witness :
    Resources.contains ⟨0, 0, 0, 4⟩ (sampleBp1.build_cost ⟨0, 0, 1, 0⟩) = true ∧
      ∃ t : State, (State.mk ⟨0, 0, 0, 1⟩ ⟨0, 0, 0, 4⟩).with_order sampleBp1 ⟨0, 0, 1, 0⟩
          = some t ∧
        t.robots = (⟨0, 0, 0, 1⟩ : Robots) + ⟨0, 0, 1, 0⟩ ∧
        t.resources.ore + (sampleBp1.build_cost ⟨0, 0, 1, 0⟩).ore = 4 + 1 ∧
        t.resources.clay + (sampleBp1.build_cost ⟨0, 0, 1, 0⟩).clay = 0 + 0 ∧
        t.resources.obsidian + (sampleBp1.build_cost ⟨0, 0, 1, 0⟩).obsidian = 0 + 0 ∧
        t.resources.geode + (sampleBp1.build_cost ⟨0, 0, 1, 0⟩).geode = 0 + 0 :=
  ⟨by decide, with_order_spec ⟨⟨0, 0, 0, 1⟩, ⟨0, 0, 0, 4⟩⟩ sampleBp1 ⟨0, 0, 1, 0⟩ (by decide)⟩

/-! ## Parsed blueprints are geode-free; monotone transitions -/

theorem parse_geodeFree (src : String) (bp : Blueprint) (h : bp ∈ parse src) :
    bp.geodeFree := by
  rw [parse] at h
  rcases List.mem_filterMap.mp h with ⟨caps, _, hbp⟩
  rcases caps with _ | ⟨x₀, _ | ⟨x₁, _ | ⟨x₂, _ | ⟨x₃, _ | ⟨x₄, _ | ⟨x₅, _ | ⟨x₆, _ | ⟨x₇, r⟩⟩⟩⟩⟩⟩⟩⟩ <;>
    simp [Blueprint.new] at hbp
  subst hbp
  exact ⟨rfl, rfl, rfl, rfl⟩

theorem build_cost_geode_eq_zero {bp : Blueprint} (h : bp.geodeFree) (r : Robots) :
    (bp.build_cost r).geode = 0 := by
  obtain ⟨h₁, h₂, h₃, h₄⟩ := h
  simp only [Blueprint.build_cost, allResourceTypes, List.foldl_cons, List.foldl_nil]
  split_ifs <;>
    simp [Blueprint.robot_cost, Resources.add_resources_def, Resources.zero, h₁, h₂, h₃, h₄]

/-- C10: every generator-legal transition succeeds, never removes a robot
(each robot count is monotone), and — since no parsed blueprint assigns a
geode cost to any robot kind — never decreases the geode count under a
geode-free blueprint. -/
theorem transition_monotone :
    (∀ (src : String) (bp : Blueprint), bp ∈ parse src → bp.geodeFree) ∧
      ∀ (s : State) (bp : Blueprint) (o : Robots),
        o ∈ order_permutation_s s.resources s.robots bp →
        ∃ t : State, s.with_order bp o = some t ∧
          s.robots.ore ≤ t.robots.ore ∧ s.robots.clay ≤ t.robots.clay ∧
          s.robots.obsidian ≤ t.robots.obsidian ∧ s.robots.geode ≤ t.robots.geode ∧
          (bp.geodeFree → s.resources.geode ≤ t.resources.geode) := by
  refine ⟨parse_geodeFree, ?_⟩
  intro s bp o ho
  have hc : s.resources.contains (bp.build_cost o) = true := (List.mem_filter.mp ho).2
  obtain ⟨t, ht, hrob, hore, hclay, hobs, hgeo⟩ := with_order_spec s bp o hc
  refine ⟨t, ht, ?_, ?_, ?_, ?_, ?_⟩
  · rw [hrob]; simp [Robots.add_robots_def]
  · rw [hrob]; simp [Robots.add_robots_def]
  · rw [hrob]; simp [Robots.add_robots_def]
  · rw [hrob]; simp [Robots.add_robots_def]
  · intro hfree
    have hz := build_cost_geode_eq_zero hfree o
    omega

/-! ## Parsing: non-matching text is skipped, not fatal -/

theorem matchToks_rest_length :
    ∀ (ts : List PatTok) (s : List Char) (res : List Nat × List Char),
      matchToks ts s = some res → res.2.length ≤ s.length
  | [], s, res => by
    intro h
    rw [matchToks, Option.some_inj] at h
    subst h
    exact le_refl _
  | PatTok.lit c :: ts, [], res => by intro h; simp [matchToks] at h
  | PatTok.anyChar :: ts, [], res => by intro h; simp [matchToks] at h
  | PatTok.lit c :: ts, x :: r, res => by
    intro h
    rw [matchToks] at h
    split at h
    · have := matchToks_rest_length ts r res h
      simp only [List.length_cons]
      omega
    · exact absurd h (by simp)
  | PatTok.anyChar :: ts, x :: r, res => by
    intro h
    rw [matchToks] at h
    split at h
    · exact absurd h (by simp)
    · have := matchToks_rest_length ts r res h
      simp only [List.length_cons]
      omega
  | PatTok.num :: ts, s, res => by
    intro h
    rw [matchToks] at h
    split at h
    · exact absurd h (by simp)
    · rcases Option.map_eq_some'.mp h with ⟨r₂, hr₂, hres⟩
      have h₁ := matchToks_rest_length ts (s.dropWhile Char.isDigit) r₂ hr₂
      have h₂ : (s.dropWhile Char.isDigit).length ≤ s.length :=
        (List.dropWhile_sublist _).length_le
      have h₃ : res.2 = r₂.2 := by rw [← hres]
      rw [h₃]
      omega

set_option maxRecDepth 100000 in
theorem blueprintPattern_head :
    blueprintPattern = PatTok.lit 'B' :: blueprintPattern.tail := by decide

theorem matchToks_blueprintPattern_ne_B {c : Char} (hc : c ≠ 'B') (r : List Char) :
    matchToks blueprintPattern (c :: r) = none := by
  rw [blueprintPattern_head, matchToks, if_neg hc]

theorem matchToks_blueprintPattern_length {s : List Char} {res : List Nat × List Char}
    (h : matchToks blueprintPattern s = some res) : res.2.length < s.length := by
  rw [blueprintPattern_head] at h
  cases s with
  | nil => simp [matchToks] at h
  | cons x r =>
    rw [matchToks] at h
    split at h
    · have := matchToks_rest_length _ _ _ h
      simp only [List.length_cons]
      omega
    · exact absurd h (by simp)

theorem findMatchesAux_nil : ∀ fuel, findMatchesAux fuel [] = [] := by
  intro fuel
  cases fuel <;> rfl

theorem findMatchesAux_fuel (fuel : Nat) : ∀ (s : List Char), s.length ≤ fuel →
    findMatchesAux fuel s = findMatchesAux s.length s := by
  induction fuel using Nat.strong_induction_on with
  | _ fuel ih =>
    intro s hs
    cases fuel with
    | zero =>
      have : s = [] := List.length_eq_zero.mp (by omega)
      subst this
      rfl
    | succ f =>
      cases s with
      | nil => rw [findMatchesAux_nil, findMatchesAux_nil]
      | cons x t =>
        rw [show (x :: t).length = t.length + 1 from rfl, findMatchesAux, findMatchesAux]
        cases hm : matchToks blueprintPattern (x :: t) with
        | some res =>
          obtain ⟨caps, rest⟩ := res
          have hlen : rest.length < t.length + 1 := by
            simpa using matchToks_blueprintPattern_length hm
          simp only [List.length_cons] at hs
          simp only [hm]
          rw [ih f (by omega) rest (by omega), ih t.length (by omega) rest (by omega)]
        | none =>
          simp only [hm]
          simp only [List.length_cons] at hs
          rw [ih f (by omega) t (by omega), ih t.length (by omega) t (le_refl _)]

theorem findMatchesAux_junk : ∀ (junk s : List Char), (∀ c ∈ junk, c ≠ 'B') →
    findMatchesAux (junk ++ s).length (junk ++ s) = findMatchesAux s.length s
  | [], s, _ => by simp
  | c :: j, s, h => by
    have hc : c ≠ 'B' := h c (by simp)
    rw [List.cons_append, show (c :: (j ++ s)).length = (j ++ s).length + 1 from rfl,
      findMatchesAux]
    simp only [matchToks_blueprintPattern_ne_B hc]
    exact findMatchesAux_junk j s (fun c hc => h c (by simp [hc]))

/-- C4 (amended): prefixing the input with text that cannot start a match
(it contains no 'B') leaves the parse result unchanged — the scanner
silently skips it rather than aborting. -/
theorem parse_skips_junk (junk s : String) (h : ∀ c ∈ junk.toList, c ≠ 'B') :
    parse (junk ++ s) = parse s := by
  rw [parse, parse]
  have ht : (junk ++ s).toList = junk.toList ++ s.toList := by
    simp [String.toList]
  rw [ht, findMatchesAux_junk junk.toList s.toList h]

set_option maxRecDepth 100000 in
/-- Witness for C4 (amended) at a concrete junk prefix. -/
theorem parse_skips_junk_witness :
    (∀ c ∈ ("junk line\n" : String).toList, c ≠ 'B') ∧
      parse ("junk line\n" ++ SAMPLE) = parse SAMPLE :=
  ⟨by decide, parse_skips_junk "junk line\n" SAMPLE (by decide)⟩

set_option maxRecDepth 400000 in
/-- C4 counterexample: an input whose first line matches the pattern
nowhere still parses without any error, and the non-matching line is
silently dropped: exactly the blueprints of the two well-formed lines are
returned (a partial blueprint list, where the claim requires an abort). -/
theorem parse_malformed_not_fatal :
    parse ("junk line\n" ++ SAMPLE) = [sampleBp1, sampleBp2] := by decide

/-! ## The known 10-tick trace (scenario 3) -/

set_option maxRecDepth 400000 in
/-- C7 counterexample: the trace that always builds the cheapest affordable
non-geode robot for 10 ticks from the canonical start under sample
blueprint 1 ends at robots {ore 1, clay 4} and resources
{ore 2, clay 16} — not the Robot Vector {ore 1, clay 3} / Resource Vector
{ore 4, clay 15} named by the claim. -/
theorem greedy_trace_misses_target :
    greedyOrders sampleBp1 10 State.starting =
        [⟨0, 0, 0, 0⟩, ⟨0, 0, 0, 0⟩, ⟨0, 0, 1, 0⟩, ⟨0, 0, 0, 0⟩, ⟨0, 0, 1, 0⟩,
         ⟨0, 0, 0, 0⟩, ⟨0, 0, 1, 0⟩, ⟨0, 0, 0, 0⟩, ⟨0, 0, 1, 0⟩, ⟨0, 0, 0, 0⟩] ∧
      applyOrders sampleBp1 State.starting (greedyOrders sampleBp1 10 State.starting) =
        some ⟨⟨0, 0, 4, 1⟩, ⟨0, 0, 16, 2⟩⟩ ∧
      State.mk ⟨0, 0, 4, 1⟩ ⟨0, 0, 16, 2⟩ ≠ State.mk ⟨0, 0, 3, 1⟩ ⟨0, 0, 15, 4⟩ :=
  ⟨by decide, by decide, by decide⟩

set_option maxRecDepth 400000 in
/-- C7 (amended): there exists a sequence of 10 generator-legal build
orders — each one building nothing or the cheapest affordable non-geode
robot (the clay robot) — whose iterated transitions from the canonical
start under sample blueprint 1 reach robots {ore 1, clay 3} and resources
{ore 4, clay 15}. -/
theorem trace_reaches_target :
    ∃ os : List Robots, os.length = 10 ∧
      ordersLegal sampleBp1 State.starting os = true ∧
      (∀ o ∈ os, o = Robots.zero ∨ o = ⟨0, 0, 1, 0⟩) ∧
      applyOrders sampleBp1 State.starting os = some ⟨⟨0, 0, 3, 1⟩, ⟨0, 0, 15, 4⟩⟩ := by
  refine ⟨[⟨0, 0, 0, 0⟩, ⟨0, 0, 0, 0⟩, ⟨0, 0, 1, 0⟩, ⟨0, 0, 0, 0⟩, ⟨0, 0, 1, 0⟩,
    ⟨0, 0, 0, 0⟩, ⟨0, 0, 1, 0⟩, ⟨0, 0, 0, 0⟩, ⟨0, 0, 0, 0⟩, ⟨0, 0, 0, 0⟩], ?_, ?_, ?_, ?_⟩
  · decide
  · decide
  · decide
  · decide

/-! ## Degenerate runs -/

theorem bestGeodes_zero_limit (bp : Blueprint) : bestGeodes bp 0 = some 0 := rfl

theorem mapM_bestGeodes_zero :
    ∀ l : List Blueprint,
      (l.mapM (fun bp => (bestGeodes bp 0).map fun g => bp.id * g)) =
        some (l.map (fun bp => bp.id * 0))
  | [] => rfl
  | bp :: t => by
    rw [List.mapM_cons, bestGeodes_zero_limit bp, mapM_bestGeodes_zero t]
    rfl

theorem foldl_add_acc : ∀ (l : List Nat) (acc : Nat), (∀ x ∈ l, x = 0) →
    l.foldl (fun a b => a + b) acc = acc
  | [], _, _ => rfl
  | x :: t, acc, h => by
    have hx : x = 0 := h x (by simp)
    subst hx
    rw [List.foldl_cons, Nat.add_zero]
    exact foldl_add_acc t acc (fun y hy => h y (by simp [hy]))

/-- C8: with a time limit of 0 the frontier is still exactly the canonical
starting state and the best geode count is 0 for every blueprint; zero
blueprints, and a zero time limit over any blueprint list, are not errors
and give a zero quality level. -/
theorem zero_time_limit_spec :
    (∀ bp : Blueprint, runSearch bp 0 = some [State.starting] ∧ bestGeodes bp 0 = some 0) ∧
      (∀ tl bl : Nat, qualityLevel [] tl bl = some 0) ∧
      (∀ (bps : List Blueprint) (bl : Nat), qualityLevel bps 0 bl = some 0) := by
  refine ⟨fun bp => ⟨rfl, rfl⟩, ?_, ?_⟩
  · intro tl bl
    rw [qualityLevel, List.take_nil]
    rfl
  · intro bps bl
    rw [qualityLevel, mapM_bestGeodes_zero]
    simp only [Option.map_some']
    rw [foldl_add_acc _ 0 (by simp)]

set_option maxRecDepth 100000 in
/-- Witness for C10: a clay-robot transition under sample blueprint 1, and
geode-freeness of the parsed sample blueprint. -/
theorem transition_monotone_witness :
    sampleBp1.geodeFree ∧
      ∃ t : State, (State.mk ⟨0, 0, 0, 1⟩ ⟨0, 0, 0, 4⟩).with_order sampleBp1 ⟨0, 0, 1, 0⟩
          = some t ∧
        1 ≤ t.robots.ore ∧ 0 ≤ t.robots.clay ∧ 0 ≤ t.robots.obsidian ∧ 0 ≤ t.robots.geode ∧
        (sampleBp1.geodeFree → 0 ≤ t.resources.geode) :=
  ⟨transition_monotone.1 SAMPLE sampleBp1 (by decide),
    transition_monotone.2 ⟨⟨0, 0, 0, 1⟩, ⟨0, 0, 0, 4⟩⟩ sampleBp1 ⟨0, 0, 1, 0⟩ (by decide)⟩

/-! ## Grouping and pruning -/

theorem groupByRobots_cons_nil {t : List State} (s : State) (h : groupByRobots t = []) :
    groupByRobots (s :: t) = [[s]] := by
  rw [groupByRobots, h]

theorem groupByRobots_cons_mid {t : List State} {gs : List (List State)} (s : State)
    (h : groupByRobots t = [] :: gs) :
    groupByRobots (s :: t) = [s] :: [] :: gs := by
  rw [groupByRobots, h]

theorem groupByRobots_cons_eq {t g : List State} {gs : List (List State)} {s x : State}
    (h : groupByRobots t = (x :: g) :: gs) (hr : s.robots = x.robots) :
    groupByRobots (s :: t) = (s :: x :: g) :: gs := by
  rw [groupByRobots, h]
  simp [hr]

theorem groupByRobots_cons_ne {t g : List State} {gs : List (List State)} {s x : State}
    (h : groupByRobots t = (x :: g) :: gs) (hr : ¬s.robots = x.robots) :
    groupByRobots (s :: t) = [s] :: (x :: g) :: gs := by
  rw [groupByRobots, h]
  simp [hr]

theorem flatten_groupByRobots : ∀ l : List State, (groupByRobots l).flatten = l
  | [] => rfl
  | s :: t => by
    have ht := flatten_groupByRobots t
    rcases h : groupByRobots t with _ | ⟨_ | ⟨x, g⟩, gs⟩
    · rw [groupByRobots_cons_nil s h]
      rw [h] at ht
      simp at ht
      subst ht
      rfl
    · rw [groupByRobots_cons_mid s h]
      rw [h] at ht
      simp at ht ⊢
      exact ht
    · rw [h] at ht
      by_cases hr : s.robots = x.robots
      · rw [groupByRobots_cons_eq h hr]
        simp at ht ⊢
        exact ht
      · rw [groupByRobots_cons_ne h hr]
        simp at ht ⊢
        exact ht

theorem groupByRobots_groups :
    ∀ (l : List State) (g : List State), g ∈ groupByRobots l →
      g ≠ [] ∧ ∀ x ∈ g, ∀ y ∈ g, x.robots = y.robots
  | [], g, hg => by simp [groupByRobots] at hg
  | s :: t, g, hg => by
    rcases h : groupByRobots t with _ | ⟨_ | ⟨x, g₀⟩, gs⟩
    · rw [groupByRobots_cons_nil s h] at hg
      have hgl : g = [s] := by simpa using hg
      subst hgl
      exact ⟨by simp, by simp⟩
    · have := (groupByRobots_groups t [] (by rw [h]; simp)).1
      exact absurd rfl this
    · have hx := groupByRobots_groups t (x :: g₀) (by rw [h]; simp)
      by_cases hr : s.robots = x.robots
      · rw [groupByRobots_cons_eq h hr] at hg
        rcases List.mem_cons.mp hg with rfl | hg
        · refine ⟨by simp, ?_⟩
          have key : ∀ z ∈ s :: x :: g₀, z.robots = x.robots := by
            intro z hz
            rcases List.mem_cons.mp hz with rfl | hz
            · exact hr
            · exact hx.2 z hz x (by simp)
          intro a ha b hb
          rw [key a ha, key b hb]
        · exact groupByRobots_groups t g (by rw [h]; simp [hg])
      · rw [groupByRobots_cons_ne h hr] at hg
        rcases List.mem_cons.mp hg with rfl | hg
        · exact ⟨by simp, by simp⟩
        · exact groupByRobots_groups t g (by rw [h]; exact hg)

theorem groupByRobots_keys :
    ∀ l : List State, l.Pairwise (fun a b => stateLe a b = true) →
      (groupByRobots l).Pairwise (fun g₁ g₂ => ∀ x ∈ g₁, ∀ y ∈ g₂, x.robots ≠ y.robots)
  | [], _ => by simp [groupByRobots]
  | s :: t, hp => by
    rw [List.pairwise_cons] at hp
    obtain ⟨hs, hpt⟩ := hp
    have ih := groupByRobots_keys t hpt
    rcases h : groupByRobots t with _ | ⟨_ | ⟨x, g₀⟩, gs⟩
    · rw [groupByRobots_cons_nil s h]
      simp
    · have := (groupByRobots_groups t [] (by rw [h]; simp)).1
      exact absurd rfl this
    · have hhomog := groupByRobots_groups t (x :: g₀) (by rw [h]; simp)
      have ht : t = x :: (g₀ ++ gs.flatten) := by
        have hf := flatten_groupByRobots t
        rw [h] at hf
        simpa using hf.symm
      rw [h, List.pairwise_cons] at ih
      obtain ⟨ihead, itail⟩ := ih
      by_cases hr : s.robots = x.robots
      · rw [groupByRobots_cons_eq h hr, List.pairwise_cons]
        constructor
        · intro g₂ hg₂ a ha y hy
          rcases List.mem_cons.mp ha with rfl | ha
          · rw [hr]
            exact ihead g₂ hg₂ x (by simp) y hy
          · exact ihead g₂ hg₂ a (by simp [ha]) y hy
        · exact itail
      · have hpt2 : ∀ z ∈ g₀ ++ gs.flatten, stateLe x z = true := by
          have hpt3 := hpt
          rw [ht, List.pairwise_cons] at hpt3
          exact hpt3.1
        rw [groupByRobots_cons_ne h hr, List.pairwise_cons]
        refine ⟨?_, by rw [List.pairwise_cons]; exact ⟨ihead, itail⟩⟩
        intro g₂ hg₂ a ha y hy
        have hasx : a = s := List.mem_singleton.mp ha
        subst hasx
        intro hcon
        rcases List.mem_cons.mp hg₂ with rfl | hg₂
        · exact hr (by rw [hcon, hhomog.2 y hy x (by simp)])
        · have hsx : stateLe a x = true := hs x (by rw [ht]; simp)
          have hxy : stateLe x y = true :=
            hpt2 y (List.mem_append.mpr (Or.inr (List.mem_flatten.mpr ⟨g₂, hg₂, hy⟩)))
          have h₁ := stateLe_robots_le hsx
          have h₂ := stateLe_robots_le hxy
          rw [← hcon] at h₂
          exact hr (robots_cmp_isLE_antisymm h₁ h₂)

theorem pruneGroup_length (g : List State) : (pruneGroup g).length ≤ 10 := by
  rw [pruneGroup]
  simp [List.length_take]

theorem mem_pruneGroup {g : List State} {x : State} (h : x ∈ pruneGroup g) : x ∈ g := by
  rw [pruneGroup] at h
  have h₁ := List.mem_of_mem_take h
  rw [List.mem_reverse] at h₁
  exact mem_sortBy.mp h₁

theorem pruneGroup_ne_nil {g : List State} (h : g ≠ []) : pruneGroup g ≠ [] := by
  have h₀ : g.length ≠ 0 := fun hc => h (List.length_eq_zero.mp hc)
  intro hc
  have h₁ := congrArg List.length hc
  rw [pruneGroup, List.length_take, List.length_reverse, length_sortBy, List.length_nil,
    Nat.min_eq_zero_iff] at h₁
  rcases h₁ with h₁ | h₁
  · exact absurd h₁ (by decide)
  · exact h₀ h₁

theorem pruneGroup_ge {g : List State} {x y : State} (hx : x ∈ pruneGroup g) (hy : y ∈ g)
    (hyn : y ∉ pruneGroup g) :
    y.resources.total_resources ≤ x.resources.total_resources := by
  have hsort : ((sortBy totalLe g).reverse).Pairwise (fun a b => totalLe b a = true) := by
    rw [List.pairwise_reverse]
    exact sortBy_sorted totalLe (fun _ _ _ => totalLe_trans) totalLe_total g
  have hy₁ : y ∈ (sortBy totalLe g).reverse := by
    rw [List.mem_reverse]
    exact mem_sortBy.mpr hy
  rw [pruneGroup] at hx hyn
  have hyd : y ∈ (sortBy totalLe g).reverse.drop 10 := by
    have hsplit := List.take_append_drop 10 (sortBy totalLe g).reverse
    rw [← hsplit, List.mem_append] at hy₁
    rcases hy₁ with hcase | hcase
    · exact absurd hcase hyn
    · exact hcase
  have hrel : totalLe y x = true :=
    List.Sorted.rel_of_mem_take_of_mem_drop hsort hx hyd
  simpa [totalLe] using hrel

theorem countP_flatten (p : State → Bool) :
    ∀ ls : List (List State), (ls.flatten.countP p) = (ls.map (fun g => g.countP p)).sum
  | [] => rfl
  | g :: gs => by simp [List.countP_append, countP_flatten p gs]

theorem countP_pruneFrontier_le (r : Robots) (l : List State) :
    ((pruneFrontier l).countP (fun s => decide (s.robots = r))) ≤
      (((groupByRobots l).map
        (fun g => (pruneGroup g).countP (fun s => decide (s.robots = r)))).sum) := by
  rw [pruneFrontier, sortDedup]
  have h₁ := (dedupAdj_sublist
      (sortBy stateLe (((groupByRobots l).map pruneGroup).flatten))).countP_le
    (fun s => decide (s.robots = r))
  rw [(sortBy_perm stateLe _).countP_eq, countP_flatten, List.map_map] at h₁
  exact h₁

theorem sum_countP_groups (r : Robots) :
    ∀ gs : List (List State),
      gs.Pairwise (fun g₁ g₂ => ∀ x ∈ g₁, ∀ y ∈ g₂, x.robots ≠ y.robots) →
      ((gs.map (fun g => (pruneGroup g).countP (fun s => decide (s.robots = r)))).sum) ≤ 10
  | [], _ => by simp
  | g :: gs, hp => by
    rw [List.pairwise_cons] at hp
    obtain ⟨hhead, htail⟩ := hp
    rw [List.map_cons, List.sum_cons]
    by_cases hzero : (pruneGroup g).countP (fun s => decide (s.robots = r)) = 0
    · rw [hzero]
      simpa using sum_countP_groups r gs htail
    · have hpos : 0 < (pruneGroup g).countP (fun s => decide (s.robots = r)) :=
        Nat.pos_of_ne_zero hzero
      rcases List.countP_pos_iff.mp hpos with ⟨x, hxm, hxp⟩
      have hxr : x.robots = r := of_decide_eq_true hxp
      have hsum0 :
          ((gs.map (fun g => (pruneGroup g).countP (fun s => decide (s.robots = r)))).sum)
            = 0 := by
        apply List.sum_eq_zero
        intro n hn
        rcases List.mem_map.mp hn with ⟨gg, hgg, rfl⟩
        rw [List.countP_eq_zero]
        intro y hym
        have hdiff := hhead gg hgg x (mem_pruneGroup hxm) y (mem_pruneGroup hym)
        simp only [decide_eq_true_eq]
        intro hyr
        exact hdiff (by rw [hxr, hyr])
      rw [hsum0, Nat.add_zero]
      exact le_trans (List.countP_le_length _) (pruneGroup_length g)

theorem same_group :
    ∀ gs : List (List State),
      gs.Pairwise (fun g₁ g₂ => ∀ x ∈ g₁, ∀ y ∈ g₂, x.robots ≠ y.robots) →
      ∀ g₁ ∈ gs, ∀ g₂ ∈ gs, ∀ x ∈ g₁, ∀ y ∈ g₂, x.robots = y.robots → y ∈ g₁ := by
  intro gs
  induction gs with
  | nil =>
    intro _ g₁ h₁
    simp at h₁
  | cons g gs ih =>
    intro hp g₁ h₁ g₂ h₂ x hx y hy hxy
    rw [List.pairwise_cons] at hp
    obtain ⟨hhead, htail⟩ := hp
    rcases List.mem_cons.mp h₁ with h₁e | h₁m
    · subst h₁e
      rcases List.mem_cons.mp h₂ with h₂e | h₂m
      · subst h₂e
        exact hy
      · exact absurd hxy (hhead g₂ h₂m x hx y hy)
    · rcases List.mem_cons.mp h₂ with h₂e | h₂m
      · subst h₂e
        exact absurd hxy.symm (hhead g₁ h₁m y hy x hx)
      · exact ih htail g₁ h₁m g₂ h₂m x hx y hy hxy

/-- C3: applied to the per-tick successor set, the prune step of `main`
retains at most 10 states per robot vector, and every retained state has
total resources greater than or equal to those of every same-robot-vector
successor that was discarded. -/
theorem prune_topK (l : List State) :
    (∀ r : Robots,
        ((pruneFrontier (sortDedup l)).countP (fun s => decide (s.robots = r))) ≤ 10) ∧
      ∀ s ∈ pruneFrontier (sortDedup l), ∀ t ∈ sortDedup l, t.robots = s.robots →
        t ∉ pruneFrontier (sortDedup l) →
        t.resources.total_resources ≤ s.resources.total_resources := by
  have hpair := sortDedup_pairwise_le l
  have hkeys := groupByRobots_keys _ hpair
  constructor
  · intro r
    exact le_trans (countP_pruneFrontier_le r _) (sum_countP_groups r _ hkeys)
  · intro s hsmem t htmem hrob htnot
    have hsmem₂ : s ∈ ((groupByRobots (sortDedup l)).map pruneGroup).flatten := by
      rw [pruneFrontier] at hsmem
      exact mem_sortDedup.mp hsmem
    rcases List.mem_flatten.mp hsmem₂ with ⟨pg, hpg, hspg⟩
    rcases List.mem_map.mp hpg with ⟨g, hgmem, rfl⟩
    have htflat : t ∈ (groupByRobots (sortDedup l)).flatten := by
      rw [flatten_groupByRobots]
      exact htmem
    rcases List.mem_flatten.mp htflat with ⟨g₂, hg₂, htg₂⟩
    have hsg : s ∈ g := mem_pruneGroup hspg
    have htg : t ∈ g := same_group _ hkeys g hgmem g₂ hg₂ s hsg t htg₂ hrob.symm
    have htnp : t ∉ pruneGroup g := by
      intro hc
      apply htnot
      rw [pruneFrontier, mem_sortDedup]
      exact List.mem_flatten.mpr ⟨pruneGroup g, List.mem_map.mpr ⟨g, hgmem, rfl⟩, hc⟩
    exact pruneGroup_ge hspg htg htnp

/-- Witness for C3: twelve same-robot-vector states; the prune keeps the
ten largest totals, and a discarded state is dominated by a retained one. -/
theorem prune_topK_witness :
    (((pruneFrontier (sortDedup ((List.range 12).map
        (fun i => State.mk ⟨0, 0, 0, 0⟩ ⟨0, 0, 0, i⟩)))).countP
          (fun s => decide (s.robots = ⟨0, 0, 0, 0⟩))) ≤ 10) ∧
      (State.mk ⟨0, 0, 0, 0⟩ ⟨0, 0, 0, 11⟩) ∈ pruneFrontier (sortDedup ((List.range 12).map
        (fun i => State.mk ⟨0, 0, 0, 0⟩ ⟨0, 0, 0, i⟩))) ∧
      (State.mk ⟨0, 0, 0, 0⟩ ⟨0, 0, 0, 0⟩) ∈ sortDedup ((List.range 12).map
        (fun i => State.mk ⟨0, 0, 0, 0⟩ ⟨0, 0, 0, i⟩)) ∧
      (State.mk ⟨0, 0, 0, 0⟩ ⟨0, 0, 0, 0⟩) ∉ pruneFrontier (sortDedup ((List.range 12).map
        (fun i => State.mk ⟨0, 0, 0, 0⟩ ⟨0, 0, 0, i⟩))) ∧
      (State.mk ⟨0, 0, 0, 0⟩ ⟨0, 0, 0, 0⟩).resources.total_resources ≤
        (State.mk ⟨0, 0, 0, 0⟩ ⟨0, 0, 0, 11⟩).resources.total_resources :=
  ⟨(prune_topK ((List.range 12).map (fun i => State.mk ⟨0, 0, 0, 0⟩ ⟨0, 0, 0, i⟩))).1
      ⟨0, 0, 0, 0⟩,
    by decide, by decide, by decide,
    (prune_topK ((List.range 12).map (fun i => State.mk ⟨0, 0, 0, 0⟩ ⟨0, 0, 0, i⟩))).2
      (State.mk ⟨0, 0, 0, 0⟩ ⟨0, 0, 0, 11⟩) (by decide)
      (State.mk ⟨0, 0, 0, 0⟩ ⟨0, 0, 0, 0⟩) (by decide) (by decide) (by decide)⟩

/-! ## The frontier never empties -/

theorem build_cost_zero (bp : Blueprint) : bp.build_cost ⟨0, 0, 0, 0⟩ = Resources.zero := rfl

theorem contains_zero (r : Resources) : r.contains Resources.zero = true := by
  simp [Resources.contains, Resources.zero]

theorem zero_mem_orders (res : Resources) (robots : Robots) (bp : Blueprint) :
    (⟨0, 0, 0, 0⟩ : Robots) ∈ order_permutation_s res robots bp := by
  rw [order_permutation_s]
  refine List.mem_filter.mpr ⟨by simp [possible_builds], ?_⟩
  rw [build_cost_zero]
  exact contains_zero res

theorem mapM_option_some {α β : Type} (f : α → Option β) :
    ∀ l : List α, (∀ a ∈ l, (f a).isSome = true) →
      ∃ lx, l.mapM f = some lx ∧ lx.length = l.length ∧ ∀ x ∈ lx, ∃ a ∈ l, f a = some x
  | [], _ => ⟨[], rfl, rfl, by simp⟩
  | a :: t, h => by
    rcases Option.isSome_iff_exists.mp (h a (by simp)) with ⟨x, hx⟩
    rcases mapM_option_some f t (fun b hb => h b (by simp [hb])) with ⟨lx, hlx, hlen, horig⟩
    refine ⟨x :: lx, ?_, by simp [hlen], ?_⟩
    · rw [List.mapM_cons, hx, hlx]
      rfl
    · intro y hy
      rcases List.mem_cons.mp hy with rfl | hy
      · exact ⟨a, by simp, hx⟩
      · rcases horig y hy with ⟨b, hb, hfb⟩
        exact ⟨b, by simp [hb], hfb⟩

theorem step_some (s : State) (bp : Blueprint) : ∃ l, s.step bp = some l ∧ l ≠ [] := by
  have h : ∀ o ∈ order_permutation_s s.resources s.robots bp,
      (s.with_order bp o).isSome = true := by
    intro o ho
    have hsub := (generator_orders_affordable _ _ _ _ ho).2
    rcases Option.isSome_iff_exists.mp hsub with ⟨c, hc⟩
    rw [State.with_order, hc]
    rfl
  rcases mapM_option_some (s.with_order bp) _ h with ⟨lx, hlx, hlen, _⟩
  refine ⟨lx, hlx, ?_⟩
  intro hnil
  rw [hnil] at hlen
  have hmem := zero_mem_orders s.resources s.robots bp
  have hne := List.ne_nil_of_mem hmem
  exact hne (List.length_eq_zero.mp hlen.symm)

theorem tick_some {bp : Blueprint} {l : List State} (h : l ≠ []) :
    ∃ lx, tick bp l = some lx ∧ lx ≠ [] := by
  have hstep : ∀ s ∈ l, (State.step s bp).isSome = true := by
    intro s _
    rcases step_some s bp with ⟨ls, hls, _⟩
    simp [hls]
  rcases mapM_option_some (fun s => State.step s bp) l hstep with ⟨ll, hll, hlen, horig⟩
  refine ⟨_, by rw [tick, hll]; rfl, ?_⟩
  have hflat : ll.flatten ≠ [] := by
    cases ll with
    | nil =>
      rw [List.length_nil] at hlen
      exact absurd (List.length_eq_zero.mp hlen.symm) h
    | cons x xs =>
      rcases horig x (by simp) with ⟨a, _, hax⟩
      rcases step_some a bp with ⟨ls, hls, hlsne⟩
      rw [hax, Option.some_inj] at hls
      subst hls
      simp only [List.flatten_cons]
      intro hc
      exact hlsne (List.append_eq_nil.mp hc).1
  unfold pruneFrontier
  apply sortDedup_ne_nil
  cases hg : groupByRobots (sortDedup ll.flatten) with
  | nil =>
    have hfg := flatten_groupByRobots (sortDedup ll.flatten)
    rw [hg] at hfg
    simp only [List.flatten_nil] at hfg
    exact absurd hfg.symm (sortDedup_ne_nil hflat)
  | cons g gs =>
    have hgne : g ≠ [] := (groupByRobots_groups _ g (by rw [hg]; simp)).1
    have hpne := pruneGroup_ne_nil hgne
    simp only [List.map_cons, List.flatten_cons]
    intro hc
    exact hpne (List.append_eq_nil.mp hc).1

theorem runSearch_some (bp : Blueprint) : ∀ n : Nat, ∃ l, runSearch bp n = some l ∧ l ≠ []
  | 0 => ⟨[State.starting], rfl, by simp⟩
  | n + 1 => by
    rcases runSearch_some bp n with ⟨l, hl, hne⟩
    rcases @tick_some bp l hne with ⟨lx, hlx, hxne⟩
    refine ⟨lx, ?_, hxne⟩
    rw [runSearch, hl, Option.some_bind]
    exact hlx

theorem bestState_some {l : List State} (h : l ≠ []) : ∃ s, bestState l = some s := by
  rw [bestState]
  cases hr : (sortBy resourcesLe l).reverse with
  | nil =>
    have h₁ := congrArg List.length hr
    rw [List.length_reverse, length_sortBy, List.length_nil] at h₁
    exact absurd (List.length_eq_zero.mp h₁) h
  | cons x xs => exact ⟨x, rfl⟩

/-- C9: the build-nothing order (whose build cost is the zero vector,
contained in every resource vector) is always generated, so every state has
at least one successor, the frontier stays nonempty at every tick, and the
final best-state extraction (index 0 of the sorted frontier) never fails. -/
theorem search_never_fails :
    (∀ (res : Resources) (robots : Robots) (bp : Blueprint),
        (⟨0, 0, 0, 0⟩ : Robots) ∈ order_permutation_s res robots bp) ∧
      ∀ (bp : Blueprint) (n : Nat),
        ∃ l, runSearch bp n = some l ∧ l ≠ [] ∧ ∃ g, bestGeodes bp n = some g := by
  refine ⟨zero_mem_orders, ?_⟩
  intro bp n
  rcases runSearch_some bp n with ⟨l, hl, hne⟩
  rcases bestState_some hne with ⟨s, hs⟩
  refine ⟨l, hl, hne, s.resources.geode, ?_⟩
  rw [bestGeodes, hl, Option.some_bind, hs]
  rfl

end Day19
